import Mathlib

/-!
Shallow embedding of `src/scene.rs` (the `Scene` type of the sprite crate).

The scene keeps three fields:
  * `children`       — the ordered sequence of top-level sprites (`Vec<Sprite<I>>`),
  * `children_index` — the identifier→position index (`HashMap<Uuid, uint>`),
  * `running`        — the animation registry
                       (`HashMap<Uuid, Vec<(Behavior, State, bool)>>`).

External collaborators are modelled as opaque codes: `Uuid`, the behavior
template `Behavior` (value equality is all the scene uses) and the execution
cursor `BState` are coded as `Nat`.  The behavior-tree interpreter is out of
scope; the tick driver `Scene.event` is therefore parameterized by an abstract
step function `step : Uuid → BState → BState × Status` producing the updated
cursor and the tick status, exactly the shape the source consumes through
`State::event`.  The per-entity pose mutation performed by the animation update
does not touch identifiers or child structure, so it is not tracked.

`HashMap` is modelled as an association list: `lookupA` finds the first
binding, `insertA` replaces the binding in place (or appends), `eraseA`
removes the binding — the three operations the source uses.
-/

abbrev Uuid : Type := Nat

/-- Opaque behavior template (`Behavior<Animation>`); the scene only copies it
and compares it by value. -/
abbrev Behavior : Type := Nat

/-- Opaque execution cursor (`State<Animation, AnimationState>`). -/
abbrev BState : Type := Nat

/-- `State::new(animation.clone())`: a fresh execution cursor derived from the
template.  The cursor internals are external; the derivation is modelled as the
template's own code. -/
def State.new (b : Behavior) : BState := b

/-- The status a behavior reports each tick (`Running | Success | Failure`). -/
inductive Status : Type where
  | running
  | succeeded
  | failed
deriving DecidableEq, Repr

/-- One animation entry: `(Behavior<Animation>, State<..>, bool)`. -/
structure Entry : Type where
  b : Behavior
  s : BState
  paused : Bool
deriving DecidableEq, Repr

/-- `HashMap::get`: first binding of the key. -/
def lookupA {α : Type} : List (Uuid × α) → Uuid → Option α
  | [], _ => none
  | (k', v) :: rest, k => if k' = k then some v else lookupA rest k

/-- `HashMap::insert`: replace the key's binding in place, else append. -/
def insertA {α : Type} : List (Uuid × α) → Uuid → α → List (Uuid × α)
  | [], k, v => [(k, v)]
  | (k', v') :: rest, k, v =>
      if k' = k then (k, v) :: rest else (k', v') :: insertA rest k v

/-- `HashMap::remove`: drop the key's binding. -/
def eraseA {α : Type} : List (Uuid × α) → Uuid → List (Uuid × α)
  | [], _ => []
  | (k', v') :: rest, k =>
      if k' = k then rest else (k', v') :: eraseA rest k

/-- Modelled from the spec: an entity (`Sprite<I>`, whose source is not part of
this crate's `src/`) is a drawable tree-structured unit exposing its own
identifier and its nested children (§3, §6).  Drawing and pose are irrelevant
to every claim and are not tracked. -/
inductive Sprite : Type where
  | node : Uuid → List Sprite → Sprite

mutual

def decEqSprite : (a b : Sprite) → Decidable (a = b)
  | .node i cs, .node j ds =>
    match Nat.decEq i j with
    | Decidable.isFalse h => Decidable.isFalse (by simp [h])
    | Decidable.isTrue h =>
      match decEqSpriteList cs ds with
      | Decidable.isTrue h2 => Decidable.isTrue (by rw [h, h2])
      | Decidable.isFalse h2 => Decidable.isFalse (by simp [h, h2])

def decEqSpriteList : (a b : List Sprite) → Decidable (a = b)
  | [], [] => Decidable.isTrue rfl
  | [], _ :: _ => Decidable.isFalse (by simp)
  | _ :: _, [] => Decidable.isFalse (by simp)
  | a :: as, b :: bs =>
    match decEqSprite a b with
    | Decidable.isFalse h => Decidable.isFalse (by simp [h])
    | Decidable.isTrue h =>
      match decEqSpriteList as bs with
      | Decidable.isTrue h2 => Decidable.isTrue (by rw [h, h2])
      | Decidable.isFalse h2 => Decidable.isFalse (by simp [h, h2])

end

instance : DecidableEq Sprite := decEqSprite

def Sprite.id : Sprite → Uuid
  | .node i _ => i

def Sprite.children : Sprite → List Sprite
  | .node _ cs => cs

mutual

/-- All identifiers in a sprite's subtree, its own included. -/
def Sprite.allIds : Sprite → List Uuid
  | .node i cs => i :: allIdsList cs

def allIdsList : List Sprite → List Uuid
  | [] => []
  | c :: cs => c.allIds ++ allIdsList cs

end

mutual

/-- Modelled from the spec: `Sprite::child` — nested-child lookup by
identifier, depth-first, first match wins (§4.1, §6). -/
def Sprite.child : Sprite → Uuid → Option Sprite
  | .node _ cs, u => childList cs u

def childList : List Sprite → Uuid → Option Sprite
  | [], _ => none
  | c :: cs, u =>
      if c.id = u then some c
      else
        match c.child u with
        | some r => some r
        | none => childList cs u

end

mutual

/-- Modelled from the spec: `Sprite::remove_child` — nested-child removal by
identifier, depth-first, first success wins; returns the removed sprite
(§4.1, §6).  The pure model also returns the updated sprite. -/
def Sprite.removeChild : Sprite → Uuid → Option (Sprite × Sprite)
  | .node i cs, u =>
      match removeList cs u with
      | some (r, cs') => some (r, .node i cs')
      | none => none

def removeList : List Sprite → Uuid → Option (Sprite × List Sprite)
  | [], _ => none
  | c :: cs, u =>
      if c.id = u then some (c, cs)
      else
        match c.removeChild u with
        | some (r, c') => some (r, c' :: cs)
        | none =>
          match removeList cs u with
          | some (r, cs') => some (r, c :: cs')
          | none => none

end

/-- `Scene<I>` (scene.rs lines 22-27). -/
structure Scene : Type where
  children : List Sprite
  children_index : List (Uuid × Nat)
  running : List (Uuid × List Entry)
deriving DecidableEq

/-- `Scene::new` (lines 31-37). -/
def Scene.new : Scene := ⟨[], [], []⟩

/-- `Scene::run` (lines 91-99): get-or-create the entry list for the sprite id,
push a fresh non-paused entry. -/
def Scene.run (sc : Scene) (u : Uuid) (b : Behavior) : Scene :=
  let l := (lookupA sc.running u).getD []
  { sc with running := insertA sc.running u (l ++ [⟨b, State.new b, false⟩]) }

/-- The loop of `Scene::find` (lines 105-111): first index whose template
compares equal. -/
def findLoop (b : Behavior) : List Entry → Nat → Option Nat
  | [], _ => none
  | e :: rest, i => if e.b = b then some i else findLoop b rest (i + 1)

/-- `Scene::find` (lines 101-116). -/
def Scene.find (sc : Scene) (u : Uuid) (b : Behavior) : Option Nat :=
  match lookupA sc.running u with
  | some l => findLoop b l 0
  | none => none

/-- `Scene::pause` (lines 119-128): remove the located entry, push it back at
the end with the paused flag set. -/
def Scene.pause (sc : Scene) (u : Uuid) (b : Behavior) : Scene :=
  match sc.find u b with
  | none => sc
  | some i =>
    match lookupA sc.running u with
    | none => sc
    | some l =>
      match l.get? i with
      | none => sc
      | some e =>
        { sc with running := insertA sc.running u (l.eraseIdx i ++ [⟨e.b, e.s, true⟩]) }

/-- `Scene::resume` (lines 131-140): as `pause`, with the flag cleared. -/
def Scene.resume (sc : Scene) (u : Uuid) (b : Behavior) : Scene :=
  match sc.find u b with
  | none => sc
  | some i =>
    match lookupA sc.running u with
    | none => sc
    | some l =>
      match l.get? i with
      | none => sc
      | some e =>
        { sc with running := insertA sc.running u (l.eraseIdx i ++ [⟨e.b, e.s, false⟩]) }

/-- `Scene::toggle` (lines 143-151): as `pause`, with the flag flipped. -/
def Scene.toggle (sc : Scene) (u : Uuid) (b : Behavior) : Scene :=
  match sc.find u b with
  | none => sc
  | some i =>
    match lookupA sc.running u with
    | none => sc
    | some l =>
      match l.get? i with
      | none => sc
      | some e =>
        { sc with running := insertA sc.running u (l.eraseIdx i ++ [⟨e.b, e.s, !e.paused⟩]) }

/-- `Scene::stop` (lines 154-160): remove the located entry from the list in
place.  Note the source never drops the key, even when the list becomes empty. -/
def Scene.stop (sc : Scene) (u : Uuid) (b : Behavior) : Scene :=
  match sc.find u b with
  | none => sc
  | some i =>
    match lookupA sc.running u with
    | none => sc
    | some l => { sc with running := insertA sc.running u (l.eraseIdx i) }

/-- `Scene::stop_all` (lines 163-165). -/
def Scene.stop_all (sc : Scene) (u : Uuid) : Scene :=
  { sc with running := eraseA sc.running u }

/-- `Scene::running` (lines 168-174), renamed since `running` is the field:
sum of entry-list lengths. -/
def Scene.runningCount (sc : Scene) : Nat :=
  (sc.running.map (fun p => p.2.length)).sum

/-- `Scene::add_child` (lines 177-182): push, index at `len - 1`, return the
sprite's own id. -/
def Scene.add_child (sc : Scene) (sp : Sprite) : Uuid × Scene :=
  let children' := sc.children ++ [sp]
  (sp.id, { sc with
              children := children',
              children_index := insertA sc.children_index sp.id (children'.length - 1) })

mutual

/-- `Scene::stop_all_including_children` (lines 184-189). -/
def stopAllIncl (sc : Scene) : Sprite → Scene
  | .node i cs => stopAllInclList (sc.stop_all i) cs

def stopAllInclList (sc : Scene) : List Sprite → Scene
  | [] => sc
  | c :: cs => stopAllInclList (stopAllIncl sc c) cs

end

/-- The re-derivation loop of `Scene::remove_child` (lines 199-202): for each
position from `i` on, re-insert `(children[index].id, index)`.  The sprites at
positions `i, i+1, …` of the post-removal vector are passed as a list. -/
def reindexLoop (m : List (Uuid × Nat)) : Nat → List Sprite → List (Uuid × Nat)
  | _, [] => m
  | i, c :: cs => reindexLoop (insertA m c.id i) (i + 1) cs

/-- The fallback loop of `Scene::remove_child` (lines 206-213): delegate the
removal into each top-level sprite's own nested-child removal, first success
wins, replacing that sprite in place. -/
def removeFromEach : List Sprite → Uuid → Option (Sprite × List Sprite)
  | [], _ => none
  | c :: cs, u =>
      match c.removeChild u with
      | some (r, c') => some (r, c' :: cs)
      | none =>
        match removeFromEach cs u with
        | some (r, cs') => some (r, c :: cs')
        | none => none

/-- `Scene::remove_child` (lines 193-224).  On a top-level hit: erase the index
binding, remove the sprite, re-derive the index for shifted positions, then
cascade the stop.  On a nested hit the source does `return Some(c)` from inside
the loop, so the cascading stop is skipped. -/
def Scene.remove_child (sc : Scene) (u : Uuid) : Option Sprite × Scene :=
  match lookupA sc.children_index u with
  | some i =>
    match sc.children.get? i with
    | some r =>
      let children' := sc.children.eraseIdx i
      let sc' : Scene := { sc with
                             children := children',
                             children_index := reindexLoop (eraseA sc.children_index u) i (children'.drop i) }
      (some r, stopAllIncl sc' r)
    | none => (none, sc)
  | none =>
    match removeFromEach sc.children u with
    | some (r, cs') => (some r, { sc with children := cs' })
    | none => (none, sc)

/-- `Scene::child` (lines 227-243): top-level index first, then depth-first
recursion into each top-level sprite. -/
def Scene.child (sc : Scene) (u : Uuid) : Option Sprite :=
  match lookupA sc.children_index u with
  | some i => sc.children.get? i
  | none => childList sc.children u

/-- `Scene::child_mut` (lines 246-262): same traversal as `child`; in this
pure model only the lookup is needed (the tick driver's step abstraction does
not change the tree). -/
def Scene.child_mut (sc : Scene) (u : Uuid) : Option Sprite :=
  match lookupA sc.children_index u with
  | some i => sc.children.get? i
  | none => childList sc.children u

/-- One entry of the tick loop (lines 48-74).  `some none` retires the entry,
`some (some e)` carries `e` forward, `none` is the `unwrap` panic of line 54
(sprite not found). -/
def tickEntry (step : Uuid → BState → BState × Status) (sc : Scene) (u : Uuid)
    (e : Entry) : Option (Option Entry) :=
  if e.paused then some (some e)
  else
    match sc.child_mut u with
    | none => none
    | some _ =>
      if (step u e.s).2 = Status.running
      then some (some ⟨e.b, (step u e.s).1, e.paused⟩)
      else some none

/-- The inner loop of `event` (lines 46-75): build the surviving entry list in
order. -/
def tickList (step : Uuid → BState → BState × Status) (sc : Scene) (u : Uuid) :
    List Entry → Option (List Entry)
  | [] => some []
  | e :: rest =>
      match tickEntry step sc u e with
      | none => none
      | some r =>
        match tickList step sc u rest with
        | none => none
        | some rest' =>
          match r with
          | some e' => some (e' :: rest')
          | none => some rest'

/-- The outer loop of `event` (lines 45-80): per key, keep the surviving list
only when non-empty. -/
def tickAll (step : Uuid → BState → BState × Status) (sc : Scene) :
    List (Uuid × List Entry) → Option (List (Uuid × List Entry))
  | [] => some []
  | (u, es) :: rest =>
      match tickList step sc u es with
      | none => none
      | some es' =>
        match tickAll step sc rest with
        | none => none
        | some rest' => some (if 0 < es'.length then (u, es') :: rest' else rest')

/-- `Scene::event` (lines 40-81): snapshot the registry, clear it, rebuild.
The entity lookups of the loop read only the tree fields, which the tick never
changes, so they are resolved against `sc` itself.  `none` models the fatal
`unwrap` failure. -/
def Scene.event (sc : Scene) (step : Uuid → BState → BState × Status) :
    Option Scene :=
  match tickAll step sc sc.running with
  | none => none
  | some r => some { sc with running := r }

/-! ### Association-list lemmas -/

theorem lookupA_insertA_self {α : Type} (m : List (Uuid × α)) (k : Uuid) (v : α) :
    lookupA (insertA m k v) k = some v := by
  induction m with
  | nil => simp [insertA, lookupA]
  | cons p rest ih =>
    obtain ⟨k', v'⟩ := p
    by_cases h : k' = k
    · simp [insertA, lookupA, h]
    · simp [insertA, lookupA, h, ih]

theorem lookupA_insertA_ne {α : Type} (m : List (Uuid × α)) (k k' : Uuid) (v : α)
    (h : k' ≠ k) : lookupA (insertA m k v) k' = lookupA m k' := by
  have hne : k ≠ k' := fun hh => h hh.symm
  induction m with
  | nil => simp [insertA, lookupA, hne]
  | cons p rest ih =>
    obtain ⟨k0, v0⟩ := p
    by_cases h0 : k0 = k
    · subst h0
      simp [insertA, lookupA, hne]
    · simp [insertA, lookupA, h0, ih]

theorem lookupA_eraseA_ne {α : Type} (m : List (Uuid × α)) (k k' : Uuid)
    (h : k' ≠ k) : lookupA (eraseA m k) k' = lookupA m k' := by
  have hne : k ≠ k' := fun hh => h hh.symm
  induction m with
  | nil => simp [eraseA]
  | cons p rest ih =>
    obtain ⟨k0, v0⟩ := p
    by_cases h0 : k0 = k
    · subst h0
      simp [eraseA, lookupA, hne]
    · simp [eraseA, lookupA, h0, ih]

theorem mem_insertA {α : Type} (m : List (Uuid × α)) (k : Uuid) (v : α)
    (p : Uuid × α) (hp : p ∈ insertA m k v) : p = (k, v) ∨ p ∈ m := by
  induction m with
  | nil => simpa [insertA] using hp
  | cons q rest ih =>
    obtain ⟨k0, v0⟩ := q
    by_cases h0 : k0 = k
    · simp only [insertA, if_pos h0] at hp
      rcases List.mem_cons.mp hp with h | h
      · exact Or.inl h
      · exact Or.inr (List.mem_cons_of_mem _ h)
    · simp only [insertA, if_neg h0] at hp
      rcases List.mem_cons.mp hp with h | h
      · exact Or.inr (List.mem_cons.mpr (Or.inl h))
      · rcases ih h with h1 | h1
        · exact Or.inl h1
        · exact Or.inr (List.mem_cons_of_mem _ h1)

theorem mem_eraseA {α : Type} (m : List (Uuid × α)) (k : Uuid)
    (p : Uuid × α) (hp : p ∈ eraseA m k) : p ∈ m := by
  induction m with
  | nil => simpa [eraseA] using hp
  | cons q rest ih =>
    obtain ⟨k0, v0⟩ := q
    by_cases h0 : k0 = k
    · simp only [eraseA, if_pos h0] at hp
      exact List.mem_cons_of_mem _ hp
    · simp only [eraseA, if_neg h0] at hp
      rcases List.mem_cons.mp hp with h | h
      · exact List.mem_cons.mpr (Or.inl h)
      · exact List.mem_cons_of_mem _ (ih h)

/-- The keys of an association list. -/
def keysA {α : Type} (m : List (Uuid × α)) : List Uuid := m.map Prod.fst

theorem keysA_insertA_of_lookupA {α : Type} (m : List (Uuid × α)) (k : Uuid)
    (v l : α) (h : lookupA m k = some l) : keysA (insertA m k v) = keysA m := by
  induction m with
  | nil => simp [lookupA] at h
  | cons q rest ih =>
    obtain ⟨k0, v0⟩ := q
    by_cases h0 : k0 = k
    · simp [insertA, keysA, h0]
    · simp only [lookupA, if_neg h0] at h
      simp [insertA, keysA, h0] at ih ⊢
      exact ih h

theorem lookupA_eq_none_of_not_mem_keysA {α : Type} (m : List (Uuid × α))
    (k : Uuid) (h : k ∉ keysA m) : lookupA m k = none := by
  induction m with
  | nil => simp [lookupA]
  | cons q rest ih =>
    obtain ⟨k0, v0⟩ := q
    simp only [keysA, List.map_cons, List.mem_cons] at h
    push_neg at h
    rw [lookupA, if_neg (fun hh : k0 = k => h.1 hh.symm)]
    exact ih h.2

/-- Total number of animation entries held by a registry. -/
def totalLen (m : List (Uuid × List Entry)) : Nat :=
  (m.map (fun p => p.2.length)).sum

theorem totalLen_insertA_some (m : List (Uuid × List Entry)) (k : Uuid)
    (v l : List Entry) (h : lookupA m k = some l) :
    totalLen (insertA m k v) + l.length = totalLen m + v.length := by
  induction m with
  | nil => simp [lookupA] at h
  | cons q rest ih =>
    obtain ⟨k0, v0⟩ := q
    by_cases h0 : k0 = k
    · simp only [lookupA, if_pos h0] at h
      cases h
      simp [insertA, totalLen, if_pos h0]
      omega
    · simp only [lookupA, if_neg h0] at h
      have := ih h
      simp only [insertA, if_neg h0]
      simp only [totalLen, List.map_cons, List.sum_cons] at this ⊢
      omega

theorem totalLen_insertA_none (m : List (Uuid × List Entry)) (k : Uuid)
    (v : List Entry) (h : lookupA m k = none) :
    totalLen (insertA m k v) = totalLen m + v.length := by
  induction m with
  | nil => simp [insertA, totalLen]
  | cons q rest ih =>
    obtain ⟨k0, v0⟩ := q
    by_cases h0 : k0 = k
    · simp [lookupA, if_pos h0] at h
    · simp only [lookupA, if_neg h0] at h
      have := ih h
      simp only [insertA, if_neg h0]
      simp only [totalLen, List.map_cons, List.sum_cons] at this ⊢
      omega

/-! ### `findLoop` characterization -/

theorem findLoop_spec (b : Behavior) (l : List Entry) :
    ∀ i j, findLoop b l i = some j →
      ∃ k, j = i + k ∧ (∃ e, l.get? k = some e ∧ e.b = b) ∧
        ∀ m e', m < k → l.get? m = some e' → e'.b ≠ b := by
  induction l with
  | nil => intro i j h; simp [findLoop] at h
  | cons e rest ih =>
    intro i j h
    by_cases hb : e.b = b
    · simp only [findLoop, if_pos hb] at h
      cases h
      exact ⟨0, by omega, ⟨e, rfl, hb⟩, fun m e' hm => by omega⟩
    · simp only [findLoop, if_neg hb] at h
      obtain ⟨k, hk, ⟨e1, he1, hb1⟩, hmin⟩ := ih (i + 1) j h
      refine ⟨k + 1, by omega, ⟨e1, by simpa using he1, hb1⟩, ?_⟩
      intro m e' hm hget
      match m with
      | 0 =>
        simp only [List.get?_cons_zero] at hget
        cases hget
        exact hb
      | Nat.succ m' =>
        simp only [List.get?_cons_succ] at hget
        exact hmin m' e' (by omega) hget

/-! ### Sprite lemmas -/

theorem id_mem_allIds (sp : Sprite) : sp.id ∈ sp.allIds := by
  cases sp with
  | node i cs => simp [Sprite.id, Sprite.allIds]

mutual

theorem child_none_of_not_mem : ∀ (sp : Sprite) (u : Uuid),
    u ∉ sp.allIds → sp.child u = none
  | .node i cs, u, h => by
    rw [Sprite.child]
    refine childList_none_of_not_mem cs u ?_
    intro hx
    exact h (by simp [Sprite.allIds]; exact Or.inr hx)

theorem childList_none_of_not_mem : ∀ (cs : List Sprite) (u : Uuid),
    u ∉ allIdsList cs → childList cs u = none
  | [], u, _ => by rw [childList]
  | c :: cs, u, h => by
    have h1 : u ∉ c.allIds := fun hx => h (by simp [allIdsList]; exact Or.inl hx)
    have h2 : u ∉ allIdsList cs := fun hx => h (by simp [allIdsList]; exact Or.inr hx)
    have hid : ¬(c.id = u) := fun he => h1 (he ▸ id_mem_allIds c)
    rw [childList, if_neg hid, child_none_of_not_mem c u h1]
    exact childList_none_of_not_mem cs u h2

end

/-- A nested removal never changes the sprite's own identifier. -/
theorem removeChild_id (sp r sp' : Sprite) (u : Uuid)
    (h : sp.removeChild u = some (r, sp')) : sp'.id = sp.id := by
  cases sp with
  | node i cs =>
    rw [Sprite.removeChild] at h
    cases hr : removeList cs u with
    | none => rw [hr] at h; cases h
    | some p => rw [hr] at h; cases h; rfl

/-- The fallback loop of `remove_child` keeps the top-level identifier
sequence unchanged. -/
theorem removeFromEach_ids (cs : List Sprite) (u : Uuid) (r : Sprite)
    (cs' : List Sprite) (h : removeFromEach cs u = some (r, cs')) :
    cs'.map Sprite.id = cs.map Sprite.id := by
  induction cs generalizing cs' with
  | nil => rw [removeFromEach] at h; cases h
  | cons c rest ih =>
    rw [removeFromEach] at h
    cases hc : c.removeChild u with
    | some p =>
      obtain ⟨r0, c0⟩ := p
      rw [hc] at h
      cases h
      simp [removeChild_id c _ c0 u hc]
    | none =>
      rw [hc] at h
      cases hr : removeFromEach rest u with
      | none => rw [hr] at h; cases h
      | some q =>
        obtain ⟨r1, cs1⟩ := q
        rw [hr] at h
        cases h
        simp [ih cs1 hr]

mutual

theorem stopAllIncl_tree : ∀ (sc : Scene) (sp : Sprite),
    (stopAllIncl sc sp).children = sc.children ∧
      (stopAllIncl sc sp).children_index = sc.children_index
  | sc, .node i cs => by
    rw [stopAllIncl]
    exact stopAllInclList_tree (sc.stop_all i) cs

theorem stopAllInclList_tree : ∀ (sc : Scene) (cs : List Sprite),
    (stopAllInclList sc cs).children = sc.children ∧
      (stopAllInclList sc cs).children_index = sc.children_index
  | sc, [] => by rw [stopAllInclList]; exact ⟨rfl, rfl⟩
  | sc, c :: cs => by
    rw [stopAllInclList]
    have h1 := stopAllIncl_tree sc c
    have h2 := stopAllInclList_tree (stopAllIncl sc c) cs
    exact ⟨h2.1.trans h1.1, h2.2.trans h1.2⟩

end

mutual

theorem mem_stopAllIncl_running : ∀ (sc : Scene) (sp : Sprite)
    (p : Uuid × List Entry), p ∈ (stopAllIncl sc sp).running → p ∈ sc.running
  | sc, .node i cs, p => by
    rw [stopAllIncl]
    intro hp
    exact mem_eraseA _ _ _ (mem_stopAllInclList_running (sc.stop_all i) cs p hp)

theorem mem_stopAllInclList_running : ∀ (sc : Scene) (cs : List Sprite)
    (p : Uuid × List Entry), p ∈ (stopAllInclList sc cs).running → p ∈ sc.running
  | _, [], _ => by rw [stopAllInclList]; exact fun hp => hp
  | sc, c :: cs, p => by
    rw [stopAllInclList]
    intro hp
    exact mem_stopAllIncl_running sc c p
      (mem_stopAllInclList_running (stopAllIncl sc c) cs p hp)

end

/-! ### Shape lemmas for the control operations -/

theorem find_some_elim (sc : Scene) (u : Uuid) (b : Behavior) (i : Nat)
    (h : sc.find u b = some i) :
    ∃ l, lookupA sc.running u = some l ∧
      ∃ e, l.get? i = some e ∧ e.b = b ∧
        ∀ j e', j < i → l.get? j = some e' → e'.b ≠ b := by
  unfold Scene.find at h
  cases hl : lookupA sc.running u with
  | none => rw [hl] at h; cases h
  | some l =>
    rw [hl] at h
    obtain ⟨k, hk, ⟨e, he, hb⟩, hmin⟩ := findLoop_spec b l 0 i h
    have hk0 : k = i := by omega
    subst hk0
    exact ⟨l, rfl, e, he, hb, fun j e' hj => hmin j e' hj⟩

theorem pause_eq_of_find_none (sc : Scene) (u : Uuid) (b : Behavior)
    (h : sc.find u b = none) : sc.pause u b = sc := by
  unfold Scene.pause
  rw [h]

theorem resume_eq_of_find_none (sc : Scene) (u : Uuid) (b : Behavior)
    (h : sc.find u b = none) : sc.resume u b = sc := by
  unfold Scene.resume
  rw [h]

theorem toggle_eq_of_find_none (sc : Scene) (u : Uuid) (b : Behavior)
    (h : sc.find u b = none) : sc.toggle u b = sc := by
  unfold Scene.toggle
  rw [h]

theorem stop_eq_of_find_none (sc : Scene) (u : Uuid) (b : Behavior)
    (h : sc.find u b = none) : sc.stop u b = sc := by
  unfold Scene.stop
  rw [h]

theorem pause_eq_of_find_some (sc : Scene) (u : Uuid) (b : Behavior) (i : Nat)
    (l : List Entry) (e : Entry) (hi : sc.find u b = some i)
    (hl : lookupA sc.running u = some l) (he : l.get? i = some e) :
    sc.pause u b =
      { sc with running := insertA sc.running u (l.eraseIdx i ++ [⟨e.b, e.s, true⟩]) } := by
  simp only [Scene.pause, hi, hl, he]

theorem resume_eq_of_find_some (sc : Scene) (u : Uuid) (b : Behavior) (i : Nat)
    (l : List Entry) (e : Entry) (hi : sc.find u b = some i)
    (hl : lookupA sc.running u = some l) (he : l.get? i = some e) :
    sc.resume u b =
      { sc with running := insertA sc.running u (l.eraseIdx i ++ [⟨e.b, e.s, false⟩]) } := by
  simp only [Scene.resume, hi, hl, he]

theorem toggle_eq_of_find_some (sc : Scene) (u : Uuid) (b : Behavior) (i : Nat)
    (l : List Entry) (e : Entry) (hi : sc.find u b = some i)
    (hl : lookupA sc.running u = some l) (he : l.get? i = some e) :
    sc.toggle u b =
      { sc with running := insertA sc.running u (l.eraseIdx i ++ [⟨e.b, e.s, !e.paused⟩]) } := by
  simp only [Scene.toggle, hi, hl, he]

theorem stop_eq_of_find_some (sc : Scene) (u : Uuid) (b : Behavior) (i : Nat)
    (l : List Entry) (hi : sc.find u b = some i)
    (hl : lookupA sc.running u = some l) :
    sc.stop u b = { sc with running := insertA sc.running u (l.eraseIdx i) } := by
  simp only [Scene.stop, hi, hl]

/-! ### The registry-emptiness invariant -/

/-- Registry emptiness (spec §3): every key of the Animation Registry maps to
a non-empty entry list. -/
def regInv (sc : Scene) : Prop := ∀ p ∈ sc.running, p.2 ≠ []

theorem runningCount_eq_totalLen (sc : Scene) :
    sc.runningCount = totalLen sc.running := rfl

theorem run_running (sc : Scene) (u : Uuid) (b : Behavior) :
    (sc.run u b).running =
      insertA sc.running u
        ((lookupA sc.running u).getD [] ++ [⟨b, State.new b, false⟩]) := rfl

theorem run_count (sc : Scene) (u : Uuid) (b : Behavior) :
    (sc.run u b).runningCount = sc.runningCount + 1 := by
  rw [runningCount_eq_totalLen, runningCount_eq_totalLen, run_running]
  cases hl : lookupA sc.running u with
  | none =>
    rw [totalLen_insertA_none sc.running u _ hl]
    simp
  | some l =>
    have := totalLen_insertA_some sc.running u
      ((some l).getD [] ++ [⟨b, State.new b, false⟩]) l hl
    simp only [Option.getD_some, List.length_append, List.length_cons,
      List.length_nil] at this ⊢
    omega

theorem stop_count (sc : Scene) (u : Uuid) (b : Behavior) (i : Nat)
    (hi : sc.find u b = some i) :
    (sc.stop u b).runningCount + 1 = sc.runningCount := by
  obtain ⟨l, hl, e, he, _, _⟩ := find_some_elim sc u b i hi
  have hlen : i < l.length := List.get?_eq_some.mp he |>.1
  rw [stop_eq_of_find_some sc u b i l hi hl]
  rw [runningCount_eq_totalLen, runningCount_eq_totalLen]
  have := totalLen_insertA_some sc.running u (l.eraseIdx i) l hl
  have herase : (l.eraseIdx i).length = l.length - 1 := by
    rw [List.length_eraseIdx]
    simp [hlen]
  simp only [Scene.running] at this ⊢
  omega

theorem regInv_run (sc : Scene) (u : Uuid) (b : Behavior) (h : regInv sc) :
    regInv (sc.run u b) := by
  intro p hp
  rw [run_running] at hp
  rcases mem_insertA _ _ _ _ hp with rfl | hmem
  · simp
  · exact h p hmem

theorem regInv_pause (sc : Scene) (u : Uuid) (b : Behavior) (h : regInv sc) :
    regInv (sc.pause u b) := by
  cases hf : sc.find u b with
  | none => rw [pause_eq_of_find_none sc u b hf]; exact h
  | some i =>
    obtain ⟨l, hl, e, he, _, _⟩ := find_some_elim sc u b i hf
    rw [pause_eq_of_find_some sc u b i l e hf hl he]
    intro p hp
    rcases mem_insertA _ _ _ _ hp with rfl | hmem
    · simp
    · exact h p hmem

theorem regInv_resume (sc : Scene) (u : Uuid) (b : Behavior) (h : regInv sc) :
    regInv (sc.resume u b) := by
  cases hf : sc.find u b with
  | none => rw [resume_eq_of_find_none sc u b hf]; exact h
  | some i =>
    obtain ⟨l, hl, e, he, _, _⟩ := find_some_elim sc u b i hf
    rw [resume_eq_of_find_some sc u b i l e hf hl he]
    intro p hp
    rcases mem_insertA _ _ _ _ hp with rfl | hmem
    · simp
    · exact h p hmem

theorem regInv_toggle (sc : Scene) (u : Uuid) (b : Behavior) (h : regInv sc) :
    regInv (sc.toggle u b) := by
  cases hf : sc.find u b with
  | none => rw [toggle_eq_of_find_none sc u b hf]; exact h
  | some i =>
    obtain ⟨l, hl, e, he, _, _⟩ := find_some_elim sc u b i hf
    rw [toggle_eq_of_find_some sc u b i l e hf hl he]
    intro p hp
    rcases mem_insertA _ _ _ _ hp with rfl | hmem
    · simp
    · exact h p hmem

theorem regInv_stop_all (sc : Scene) (u : Uuid) (h : regInv sc) :
    regInv (sc.stop_all u) :=
  fun p hp => h p (mem_eraseA _ _ _ hp)

theorem regInv_add_child (sc : Scene) (sp : Sprite) (h : regInv sc) :
    regInv (sc.add_child sp).2 := h

theorem remove_child_eq_top (sc : Scene) (u : Uuid) (i : Nat) (r : Sprite)
    (hidx : lookupA sc.children_index u = some i)
    (hgr : sc.children.get? i = some r) :
    sc.remove_child u =
      (some r, stopAllIncl
        { sc with
            children := sc.children.eraseIdx i,
            children_index :=
              reindexLoop (eraseA sc.children_index u) i
                ((sc.children.eraseIdx i).drop i) } r) := by
  simp only [Scene.remove_child, hidx, hgr]

theorem remove_child_eq_top_dead (sc : Scene) (u : Uuid) (i : Nat)
    (hidx : lookupA sc.children_index u = some i)
    (hgr : sc.children.get? i = none) :
    sc.remove_child u = (none, sc) := by
  simp only [Scene.remove_child, hidx, hgr]

theorem remove_child_eq_nested (sc : Scene) (u : Uuid) (r : Sprite)
    (cs' : List Sprite) (hidx : lookupA sc.children_index u = none)
    (hrf : removeFromEach sc.children u = some (r, cs')) :
    sc.remove_child u = (some r, { sc with children := cs' }) := by
  simp only [Scene.remove_child, hidx, hrf]

theorem remove_child_eq_miss (sc : Scene) (u : Uuid)
    (hidx : lookupA sc.children_index u = none)
    (hrf : removeFromEach sc.children u = none) :
    sc.remove_child u = (none, sc) := by
  simp only [Scene.remove_child, hidx, hrf]

theorem mem_remove_child_running (sc : Scene) (u : Uuid) (p : Uuid × List Entry)
    (hp : p ∈ (sc.remove_child u).2.running) : p ∈ sc.running := by
  cases hidx : lookupA sc.children_index u with
  | some i =>
    cases hgr : sc.children.get? i with
    | some r =>
      rw [remove_child_eq_top sc u i r hidx hgr] at hp
      exact mem_stopAllIncl_running
        { sc with
            children := sc.children.eraseIdx i,
            children_index :=
              reindexLoop (eraseA sc.children_index u) i
                ((sc.children.eraseIdx i).drop i) } r p hp
    | none =>
      rw [remove_child_eq_top_dead sc u i hidx hgr] at hp
      exact hp
  | none =>
    cases hrf : removeFromEach sc.children u with
    | some q =>
      obtain ⟨r, cs'⟩ := q
      rw [remove_child_eq_nested sc u r cs' hidx hrf] at hp
      exact hp
    | none =>
      rw [remove_child_eq_miss sc u hidx hrf] at hp
      exact hp

theorem regInv_remove_child (sc : Scene) (u : Uuid) (h : regInv sc) :
    regInv (sc.remove_child u).2 :=
  fun p hp => h p (mem_remove_child_running sc u p hp)

theorem tickAll_nonempty (step : Uuid → BState → BState × Status) (sc : Scene) :
    ∀ (rs : List (Uuid × List Entry)) (out : List (Uuid × List Entry)),
      tickAll step sc rs = some out → ∀ p ∈ out, p.2 ≠ [] := by
  intro rs
  induction rs with
  | nil =>
    intro out h
    rw [tickAll] at h
    cases h
    simp
  | cons q rest ih =>
    obtain ⟨u, es⟩ := q
    intro out h
    rw [tickAll] at h
    cases hes : tickList step sc u es with
    | none => rw [hes] at h; cases h
    | some es' =>
      rw [hes] at h
      cases hr : tickAll step sc rest with
      | none => rw [hr] at h; cases h
      | some rest' =>
        rw [hr] at h
        cases h
        intro p hp
        by_cases hlen : 0 < es'.length
        · rw [if_pos hlen] at hp
          rcases List.mem_cons.mp hp with rfl | hmem
          · simp only [ne_eq]
            intro hc
            rw [hc] at hlen
            simp at hlen
          · exact ih rest' hr p hmem
        · rw [if_neg hlen] at hp
          exact ih rest' hr p hp

theorem regInv_event (sc : Scene) (step : Uuid → BState → BState × Status)
    (sc' : Scene) (h : sc.event step = some sc') : regInv sc' := by
  unfold Scene.event at h
  cases hr : tickAll step sc sc.running with
  | none => rw [hr] at h; cases h
  | some out =>
    rw [hr] at h
    cases h
    exact tickAll_nonempty step sc sc.running out hr

theorem stop_keys (sc : Scene) (u : Uuid) (b : Behavior) :
    keysA (sc.stop u b).running = keysA sc.running := by
  cases hf : sc.find u b with
  | none => rw [stop_eq_of_find_none sc u b hf]
  | some i =>
    obtain ⟨l, hl, _, _, _, _⟩ := find_some_elim sc u b i hf
    rw [stop_eq_of_find_some sc u b i l hf hl]
    exact keysA_insertA_of_lookupA sc.running u _ l hl

theorem stop_lookup (sc : Scene) (u : Uuid) (b : Behavior) (i : Nat)
    (l : List Entry) (hi : sc.find u b = some i)
    (hl : lookupA sc.running u = some l) :
    lookupA (sc.stop u b).running u = some (l.eraseIdx i) := by
  rw [stop_eq_of_find_some sc u b i l hi hl]
  exact lookupA_insertA_self sc.running u (l.eraseIdx i)

instance (sc : Scene) : Decidable (regInv sc) :=
  inferInstanceAs (Decidable (∀ p ∈ sc.running, p.2 ≠ []))

theorem run_child (sc : Scene) (u v : Uuid) (b : Behavior) :
    (sc.run u b).child v = sc.child v := rfl

/-! ### Claims -/

/-- C1 (the code contradicts the spec and its own doc comment here): removing a
*nested* child returns the removed sprite but leaves its animation entries in
the registry — the `return Some(c)` inside the fallback loop of `remove_child`
(scene.rs line 209) skips `stop_all_including_children`.  Here sprite 2 is
nested inside top-level sprite 1, has a running animation, is successfully
removed, and its registry key survives. -/
theorem c1_nested_removal_skips_cascade_stop :
    ((((Scene.new.add_child (Sprite.node 1 [Sprite.node 2 []])).2.run 2 7).remove_child 2).1
        = some (Sprite.node 2 [])) ∧
      lookupA
        ((((Scene.new.add_child (Sprite.node 1 [Sprite.node 2 []])).2.run 2 7).remove_child 2).2).running
        2 = some [⟨7, State.new 7, false⟩] := by decide

/-- C2 counterexample: `stop` does not drop an identifier's key when its entry
list becomes empty.  After `run` then `stop` of the same template, key 0 is
still in the registry, mapping to the empty list, violating the
registry-emptiness invariant the claim asserts. -/
theorem c2_stop_keeps_empty_list_counterexample :
    regInv (Scene.new.run 0 5) ∧ ¬ regInv ((Scene.new.run 0 5).stop 0 5) ∧
      lookupA ((Scene.new.run 0 5).stop 0 5).running 0 = some [] := by decide

/-- C2 (amended): `run`, `pause`, `resume`, `toggle`, `stop_all`, `add_child`,
`remove_child` and `event` preserve the registry-emptiness invariant; `stop`
removes the located entry in place but never drops the identifier's key, so a
`stop` of the last entry leaves the key mapping to the empty list. -/
theorem c2_registry_emptiness_invariant :
    ∀ (sc : Scene) (u : Uuid) (b : Behavior) (sp : Sprite),
      regInv sc →
      regInv (sc.run u b) ∧ regInv (sc.pause u b) ∧ regInv (sc.resume u b) ∧
        regInv (sc.toggle u b) ∧ regInv (sc.stop_all u) ∧
        regInv (sc.add_child sp).2 ∧ regInv (sc.remove_child u).2 ∧
        (∀ step sc', sc.event step = some sc' → regInv sc') ∧
        keysA (sc.stop u b).running = keysA sc.running ∧
        (∀ i l, sc.find u b = some i → lookupA sc.running u = some l →
          lookupA (sc.stop u b).running u = some (l.eraseIdx i)) := by
  intro sc u b sp h
  exact ⟨regInv_run sc u b h, regInv_pause sc u b h, regInv_resume sc u b h,
    regInv_toggle sc u b h, regInv_stop_all sc u h, regInv_add_child sc sp h,
    regInv_remove_child sc u h, fun step sc' hev => regInv_event sc step sc' hev,
    stop_keys sc u b, fun i l hi hl => stop_lookup sc u b i l hi hl⟩

theorem c2_registry_emptiness_invariant_witness :
    regInv (Scene.new.run 0 5) ∧ regInv ((Scene.new.run 0 5).pause 0 5) :=
  ⟨by decide,
    (c2_registry_emptiness_invariant (Scene.new.run 0 5) 0 5 (Sprite.node 3 [])
      (by decide)).2.1⟩

/-- C5: `run` increases `running()` by exactly one; a `stop` that locates an
entry decreases it by exactly one. -/
theorem c5_run_increments_stop_decrements :
    ∀ (sc : Scene) (u : Uuid) (b : Behavior),
      (sc.run u b).runningCount = sc.runningCount + 1 ∧
        ∀ i, sc.find u b = some i →
          (sc.stop u b).runningCount + 1 = sc.runningCount :=
  fun sc u b => ⟨run_count sc u b, fun i hi => stop_count sc u b i hi⟩

theorem c5_run_increments_stop_decrements_witness :
    (Scene.new.run 0 5).find 0 5 = some 0 ∧
      ((Scene.new.run 0 5).stop 0 5).runningCount + 1 =
        (Scene.new.run 0 5).runningCount :=
  ⟨by decide,
    (c5_run_increments_stop_decrements (Scene.new.run 0 5) 0 5).2 0 (by decide)⟩

/-- C6: `pause`/`resume`/`toggle` are no-ops when the template is not located;
otherwise they remove the first entry whose template equals the given one and
reinsert it at the end of the identifier's list with the paused flag set,
cleared, or flipped, leaving that entry's template and cursor, all other
entries, and all other identifiers' lists unchanged. -/
theorem c6_pause_resume_toggle :
    ∀ (sc : Scene) (u : Uuid) (b : Behavior),
      (sc.find u b = none →
        sc.pause u b = sc ∧ sc.resume u b = sc ∧ sc.toggle u b = sc) ∧
      ∀ i, sc.find u b = some i →
        ∃ l e, lookupA sc.running u = some l ∧ l.get? i = some e ∧ e.b = b ∧
          (∀ j e', j < i → l.get? j = some e' → e'.b ≠ b) ∧
          lookupA (sc.pause u b).running u =
            some (l.eraseIdx i ++ [⟨e.b, e.s, true⟩]) ∧
          lookupA (sc.resume u b).running u =
            some (l.eraseIdx i ++ [⟨e.b, e.s, false⟩]) ∧
          lookupA (sc.toggle u b).running u =
            some (l.eraseIdx i ++ [⟨e.b, e.s, !e.paused⟩]) ∧
          ∀ v, v ≠ u →
            lookupA (sc.pause u b).running v = lookupA sc.running v ∧
            lookupA (sc.resume u b).running v = lookupA sc.running v ∧
            lookupA (sc.toggle u b).running v = lookupA sc.running v := by
  intro sc u b
  constructor
  · intro h
    exact ⟨pause_eq_of_find_none sc u b h, resume_eq_of_find_none sc u b h,
      toggle_eq_of_find_none sc u b h⟩
  · intro i hi
    obtain ⟨l, hl, e, he, hb, hmin⟩ := find_some_elim sc u b i hi
    refine ⟨l, e, hl, he, hb, hmin, ?_, ?_, ?_, ?_⟩
    · rw [pause_eq_of_find_some sc u b i l e hi hl he]
      exact lookupA_insertA_self _ _ _
    · rw [resume_eq_of_find_some sc u b i l e hi hl he]
      exact lookupA_insertA_self _ _ _
    · rw [toggle_eq_of_find_some sc u b i l e hi hl he]
      exact lookupA_insertA_self _ _ _
    · intro v hv
      rw [pause_eq_of_find_some sc u b i l e hi hl he,
        resume_eq_of_find_some sc u b i l e hi hl he,
        toggle_eq_of_find_some sc u b i l e hi hl he]
      exact ⟨lookupA_insertA_ne _ _ _ _ hv, lookupA_insertA_ne _ _ _ _ hv,
        lookupA_insertA_ne _ _ _ _ hv⟩

theorem c6_pause_resume_toggle_witness :
    (Scene.new.find 3 4 = none ∧
      (Scene.new.pause 3 4 = Scene.new ∧ Scene.new.resume 3 4 = Scene.new ∧
        Scene.new.toggle 3 4 = Scene.new)) ∧
    ((Scene.new.run 0 5).find 0 5 = some 0 ∧
      ∃ l e, lookupA (Scene.new.run 0 5).running 0 = some l ∧
        l.get? 0 = some e ∧ e.b = 5 ∧
        (∀ j e', j < 0 → l.get? j = some e' → e'.b ≠ 5) ∧
        lookupA ((Scene.new.run 0 5).pause 0 5).running 0 =
          some (l.eraseIdx 0 ++ [⟨e.b, e.s, true⟩]) ∧
        lookupA ((Scene.new.run 0 5).resume 0 5).running 0 =
          some (l.eraseIdx 0 ++ [⟨e.b, e.s, false⟩]) ∧
        lookupA ((Scene.new.run 0 5).toggle 0 5).running 0 =
          some (l.eraseIdx 0 ++ [⟨e.b, e.s, !e.paused⟩]) ∧
        ∀ v, v ≠ 0 →
          lookupA ((Scene.new.run 0 5).pause 0 5).running v =
            lookupA (Scene.new.run 0 5).running v ∧
          lookupA ((Scene.new.run 0 5).resume 0 5).running v =
            lookupA (Scene.new.run 0 5).running v ∧
          lookupA ((Scene.new.run 0 5).toggle 0 5).running v =
            lookupA (Scene.new.run 0 5).running v) :=
  ⟨⟨by decide, (c6_pause_resume_toggle Scene.new 3 4).1 (by decide)⟩,
    ⟨by decide, (c6_pause_resume_toggle (Scene.new.run 0 5) 0 5).2 0 (by decide)⟩⟩

/-- C10: `run` performs no validation of the identifier against the entity
tree: for an identifier absent from the tree it still registers a fresh
non-paused entry under that identifier, `running()` grows by one, and the
identifier still has no entity. -/
theorem c10_run_skips_tree_validation :
    ∀ (sc : Scene) (u : Uuid) (b : Behavior),
      sc.child u = none →
      (sc.run u b).runningCount = sc.runningCount + 1 ∧
        lookupA (sc.run u b).running u =
          some ((lookupA sc.running u).getD [] ++ [⟨b, State.new b, false⟩]) ∧
        (sc.run u b).child u = none := by
  intro sc u b h
  refine ⟨run_count sc u b, ?_, (run_child sc u u b).trans h⟩
  rw [run_running]
  exact lookupA_insertA_self _ _ _

theorem c10_run_skips_tree_validation_witness :
    Scene.new.child 99 = none ∧
      ((Scene.new.run 99 5).runningCount = Scene.new.runningCount + 1 ∧
        lookupA (Scene.new.run 99 5).running 99 =
          some ((lookupA Scene.new.running 99).getD [] ++ [⟨5, State.new 5, false⟩]) ∧
        (Scene.new.run 99 5).child 99 = none) :=
  ⟨by decide, c10_run_skips_tree_validation Scene.new 99 5 (by decide)⟩

/-! ### Tree/index consistency -/

/-- The identifiers of the top-level sprites, in order. -/
def topIds (sc : Scene) : List Uuid := sc.children.map Sprite.id

/-- Tree/index consistency (spec §3): the identifier→position index maps an
identifier to a position exactly when the top-level sprite at that position
carries that identifier. -/
def indexConsistent (sc : Scene) : Prop :=
  ∀ u n, lookupA sc.children_index u = some n ↔
    ∃ sp, sc.children.get? n = some sp ∧ sp.id = u

/-- The full tree-side invariant: index consistency plus distinct index keys
(a `HashMap` holds each key once; the association-list model makes this
explicit). -/
def sceneInv (sc : Scene) : Prop :=
  indexConsistent sc ∧ (keysA sc.children_index).Nodup

theorem keysA_insertA {α : Type} (m : List (Uuid × α)) (k : Uuid) (v : α) :
    keysA (insertA m k v) =
      if k ∈ keysA m then keysA m else keysA m ++ [k] := by
  induction m with
  | nil => simp [insertA, keysA]
  | cons q rest ih =>
    obtain ⟨k0, v0⟩ := q
    by_cases h0 : k0 = k
    · subst h0
      simp [insertA, keysA]
    · have hne : ¬(k = k0) := fun hh => h0 hh.symm
      simp only [insertA, if_neg h0, keysA, List.map_cons, List.mem_cons, hne,
        false_or]
      simp only [keysA] at ih
      rw [ih]
      split
      · rfl
      · simp

theorem keysA_insertA_nodup {α : Type} (m : List (Uuid × α)) (k : Uuid) (v : α)
    (h : (keysA m).Nodup) : (keysA (insertA m k v)).Nodup := by
  rw [keysA_insertA]
  split
  · exact h
  next hk =>
    refine List.Nodup.append h (List.nodup_singleton k) ?_
    intro a ha ha'
    simp only [List.mem_singleton] at ha'
    subst ha'
    exact hk ha

theorem keysA_eraseA {α : Type} (m : List (Uuid × α)) (k : Uuid) :
    keysA (eraseA m k) = (keysA m).erase k := by
  induction m with
  | nil => simp [eraseA, keysA]
  | cons q rest ih =>
    obtain ⟨k0, v0⟩ := q
    by_cases h0 : k0 = k
    · subst h0
      simp [eraseA, keysA]
    · simp only [eraseA, if_neg h0, keysA, List.map_cons]
      rw [List.erase_cons_tail]
      · simp only [keysA] at ih
        rw [ih]
      · simp [h0]

theorem keysA_eraseA_nodup {α : Type} (m : List (Uuid × α)) (k : Uuid)
    (h : (keysA m).Nodup) : (keysA (eraseA m k)).Nodup := by
  rw [keysA_eraseA]
  exact h.erase k

theorem lookupA_eraseA_self {α : Type} (m : List (Uuid × α)) (k : Uuid)
    (hnd : (keysA m).Nodup) : lookupA (eraseA m k) k = none := by
  induction m with
  | nil => simp [eraseA, lookupA]
  | cons q rest ih =>
    obtain ⟨k0, v0⟩ := q
    simp only [keysA, List.map_cons, List.nodup_cons] at hnd
    by_cases h0 : k0 = k
    · subst h0
      rw [eraseA, if_pos rfl]
      exact lookupA_eq_none_of_not_mem_keysA rest k0 hnd.1
    · rw [eraseA, if_neg h0, lookupA, if_neg h0]
      exact ih hnd.2

theorem lookupA_reindexLoop_not_mem (l : List Sprite) :
    ∀ (m : List (Uuid × Nat)) (i : Nat) (v : Uuid),
      v ∉ l.map Sprite.id → lookupA (reindexLoop m i l) v = lookupA m v := by
  induction l with
  | nil => intro m i v _; rw [reindexLoop]
  | cons c cs ih =>
    intro m i v hv
    simp only [List.map_cons, List.mem_cons] at hv
    push_neg at hv
    rw [reindexLoop, ih _ _ _ hv.2]
    exact lookupA_insertA_ne m c.id v i hv.1

theorem lookupA_reindexLoop_mem (l : List Sprite) :
    ∀ (m : List (Uuid × Nat)) (i j : Nat) (c : Sprite),
      (l.map Sprite.id).Nodup → l.get? j = some c →
      lookupA (reindexLoop m i l) c.id = some (i + j) := by
  induction l with
  | nil => intro m i j c _ hj; simp at hj
  | cons hd tl ih =>
    intro m i j c hnd hj
    simp only [List.map_cons, List.nodup_cons] at hnd
    match j with
    | 0 =>
      simp only [List.get?_cons_zero, Option.some.injEq] at hj
      subst hj
      rw [reindexLoop, lookupA_reindexLoop_not_mem tl _ _ _ hnd.1]
      rw [lookupA_insertA_self]
      congr 1
    | Nat.succ j' =>
      simp only [List.get?_cons_succ] at hj
      have := ih (insertA m hd.id i) (i + 1) j' c hnd.2 hj
      rw [reindexLoop, this]
      congr 1
      omega

theorem keysA_reindexLoop_nodup (l : List Sprite) :
    ∀ (m : List (Uuid × Nat)) (i : Nat),
      (keysA m).Nodup → (keysA (reindexLoop m i l)).Nodup := by
  induction l with
  | nil => intro m i h; rw [reindexLoop]; exact h
  | cons c cs ih =>
    intro m i h
    rw [reindexLoop]
    exact ih _ _ (keysA_insertA_nodup m c.id i h)

theorem get_map_ids (l : List Sprite) (k : Nat)
    (hk : k < (l.map Sprite.id).length) :
    (l.map Sprite.id).get ⟨k, hk⟩ = (l.get ⟨k, by simpa using hk⟩).id := by
  simp [List.get_eq_getElem, List.getElem_map]

theorem ids_nodup_get_inj (l : List Sprite) (hnd : (l.map Sprite.id).Nodup)
    (n1 n2 : Nat) (h1 : n1 < l.length) (h2 : n2 < l.length)
    (he : (l.get ⟨n1, h1⟩).id = (l.get ⟨n2, h2⟩).id) : n1 = n2 := by
  have hinj := List.nodup_iff_injective_get.mp hnd
  have hg : (l.map Sprite.id).get ⟨n1, by simpa using h1⟩ =
      (l.map Sprite.id).get ⟨n2, by simpa using h2⟩ := by
    rw [get_map_ids, get_map_ids]
    exact he
  have := hinj hg
  exact congrArg Fin.val this

theorem ic_topIds_nodup (sc : Scene) (hic : indexConsistent sc) :
    (topIds sc).Nodup := by
  rw [List.nodup_iff_injective_get]
  intro a1 a2 he
  obtain ⟨n1, h1⟩ := a1
  obtain ⟨n2, h2⟩ := a2
  simp only [topIds] at h1 h2 he
  have h1' : n1 < sc.children.length := by simpa using h1
  have h2' : n2 < sc.children.length := by simpa using h2
  rw [get_map_ids sc.children n1 h1, get_map_ids sc.children n2 h2] at he
  have ha := (hic ((sc.children.get ⟨n2, by simpa using h2⟩).id) n1).mpr
    ⟨sc.children.get ⟨n1, by simpa using h1⟩, List.get?_eq_get h1', he⟩
  have hb := (hic ((sc.children.get ⟨n2, by simpa using h2⟩).id) n2).mpr
    ⟨sc.children.get ⟨n2, by simpa using h2⟩, List.get?_eq_get h2', rfl⟩
  rw [ha] at hb
  have hn : n1 = n2 := Option.some.inj hb
  exact Fin.ext hn

theorem get?_eraseIdx {α : Type} (l : List α) (i n : Nat) (hi : i < l.length) :
    (l.eraseIdx i).get? n = if n < i then l.get? n else l.get? (n + 1) := by
  rw [List.eraseIdx_eq_take_drop_succ]
  by_cases h : n < i
  · rw [if_pos h]
    have hn : n < (l.take i).length := by rw [List.length_take]; omega
    rw [List.get?_append hn, List.get?_take h]
  · rw [if_neg h]
    have hn : (l.take i).length ≤ n := by rw [List.length_take]; omega
    rw [List.get?_append_right hn, List.get?_drop]
    congr 1
    rw [List.length_take]
    omega

theorem map_ids_eq_get? (l1 l2 : List Sprite)
    (hids : l1.map Sprite.id = l2.map Sprite.id) (n : Nat) :
    (l1.get? n).map Sprite.id = (l2.get? n).map Sprite.id := by
  rw [← List.get?_map, ← List.get?_map, hids]

theorem sceneInv_of_tree_eq (s1 s2 : Scene) (hc : s2.children = s1.children)
    (hi : s2.children_index = s1.children_index) (h : sceneInv s1) :
    sceneInv s2 := by
  obtain ⟨h1, h2⟩ := h
  constructor
  · intro u n
    rw [hi, hc]
    exact h1 u n
  · rw [hi]
    exact h2

theorem sceneInv_new : sceneInv Scene.new := by
  constructor
  · intro u n
    simp [Scene.new, lookupA]
  · simp [Scene.new, keysA]

theorem sceneInv_add_child (sc : Scene) (sp : Sprite) (hinv : sceneInv sc)
    (hfresh : sp.id ∉ topIds sc) : sceneInv (sc.add_child sp).2 := by
  obtain ⟨hic, hnd⟩ := hinv
  constructor
  · intro u n
    show lookupA (insertA sc.children_index sp.id ((sc.children ++ [sp]).length - 1)) u
        = some n ↔ ∃ q, (sc.children ++ [sp]).get? n = some q ∧ q.id = u
    have hL : (sc.children ++ [sp]).length - 1 = sc.children.length := by simp
    rw [hL]
    by_cases hu : u = sp.id
    · subst hu
      rw [lookupA_insertA_self]
      constructor
      · intro heq
        obtain rfl : sc.children.length = n := Option.some.inj heq
        exact ⟨sp, List.get?_concat_length sc.children sp, rfl⟩
      · rintro ⟨q, hq, hqid⟩
        by_cases hn : n < sc.children.length
        · exfalso
          rw [List.get?_append hn] at hq
          apply hfresh
          rw [← hqid]
          simp only [topIds]
          exact List.mem_map.mpr ⟨q, List.get?_mem hq, rfl⟩
        · have hlt : n < sc.children.length + 1 := by
            have := (List.get?_eq_some.mp hq).1
            simpa using this
          have hne : n = sc.children.length := by omega
          subst hne
          rfl
    · rw [lookupA_insertA_ne _ _ _ _ hu, hic u n]
      constructor
      · rintro ⟨q, hq, hqid⟩
        have hn : n < sc.children.length := (List.get?_eq_some.mp hq).1
        exact ⟨q, by rw [List.get?_append hn]; exact hq, hqid⟩
      · rintro ⟨q, hq, hqid⟩
        by_cases hn : n < sc.children.length
        · rw [List.get?_append hn] at hq
          exact ⟨q, hq, hqid⟩
        · exfalso
          have hlt : n < sc.children.length + 1 := by
            have := (List.get?_eq_some.mp hq).1
            simpa using this
          have hne : n = sc.children.length := by omega
          subst hne
          rw [List.get?_concat_length] at hq
          cases hq
          exact hu hqid.symm
  · exact keysA_insertA_nodup _ _ _ hnd

theorem sceneInv_remove_child (sc : Scene) (u : Uuid) (hinv : sceneInv sc) :
    sceneInv (sc.remove_child u).2 := by
  obtain ⟨hic, hnd⟩ := hinv
  cases hidx : lookupA sc.children_index u with
  | none =>
    cases hrf : removeFromEach sc.children u with
    | none => rw [remove_child_eq_miss sc u hidx hrf]; exact ⟨hic, hnd⟩
    | some q =>
      obtain ⟨r, cs'⟩ := q
      rw [remove_child_eq_nested sc u r cs' hidx hrf]
      have hids := removeFromEach_ids sc.children u r cs' hrf
      refine ⟨?_, hnd⟩
      intro v n
      show lookupA sc.children_index v = some n ↔ ∃ q, cs'.get? n = some q ∧ q.id = v
      rw [hic v n]
      have h := map_ids_eq_get? cs' sc.children hids n
      constructor
      · rintro ⟨q, hq, hqid⟩
        rw [hq] at h
        cases hq' : cs'.get? n with
        | none => rw [hq'] at h; simp at h
        | some q' =>
          rw [hq'] at h
          simp only [Option.map_some'] at h
          refine ⟨q', rfl, ?_⟩
          rw [Option.some.inj h]
          exact hqid
      · rintro ⟨q, hq, hqid⟩
        rw [hq] at h
        cases hq' : sc.children.get? n with
        | none => rw [hq'] at h; simp at h
        | some q' =>
          rw [hq'] at h
          simp only [Option.map_some'] at h
          refine ⟨q', rfl, ?_⟩
          rw [← Option.some.inj h]
          exact hqid
  | some i =>
    obtain ⟨r0, hgr0, hid0⟩ := (hic u i).mp hidx
    rw [remove_child_eq_top sc u i r0 hidx hgr0]
    have hlt : i < sc.children.length := (List.get?_eq_some.mp hgr0).1
    have hnd_top : (sc.children.map Sprite.id).Nodup := by
      have := ic_topIds_nodup sc hic
      simpa [topIds] using this
    have hnd' : ((sc.children.eraseIdx i).map Sprite.id).Nodup :=
      List.Nodup.sublist (List.Sublist.map _ (List.eraseIdx_sublist _ i)) hnd_top
    have hlen' : (sc.children.eraseIdx i).length = sc.children.length - 1 := by
      rw [List.length_eraseIdx]
      simp [hlt]
    refine sceneInv_of_tree_eq _ _ (stopAllIncl_tree _ r0).1 (stopAllIncl_tree _ r0).2 ?_
    constructor
    · intro v n
      show lookupA
          (reindexLoop (eraseA sc.children_index u) i ((sc.children.eraseIdx i).drop i)) v
          = some n ↔ ∃ q, (sc.children.eraseIdx i).get? n = some q ∧ q.id = v
      by_cases hv : v ∈ ((sc.children.eraseIdx i).drop i).map Sprite.id
      · obtain ⟨c, hcmem, hcid⟩ := List.mem_map.mp hv
        obtain ⟨j, hj⟩ := List.mem_iff_get?.mp hcmem
        have hdnd : (((sc.children.eraseIdx i).drop i).map Sprite.id).Nodup :=
          List.Nodup.sublist (List.Sublist.map _ (List.drop_sublist _ _)) hnd'
        have hlk := lookupA_reindexLoop_mem ((sc.children.eraseIdx i).drop i)
          (eraseA sc.children_index u) i j c hdnd hj
        rw [hcid] at hlk
        rw [hlk]
        have habs : (sc.children.eraseIdx i).get? (i + j) = some c := by
          rw [← List.get?_drop]
          exact hj
        constructor
        · intro heq
          obtain rfl : i + j = n := Option.some.inj heq
          exact ⟨c, habs, hcid⟩
        · rintro ⟨q, hq, hqid⟩
          obtain ⟨hn1, hg1⟩ := List.get?_eq_some.mp hq
          obtain ⟨hn2, hg2⟩ := List.get?_eq_some.mp habs
          have hne : n = i + j := by
            apply ids_nodup_get_inj (sc.children.eraseIdx i) hnd' n (i + j) hn1 hn2
            rw [hg1, hg2, hqid, hcid]
          rw [hne]
      · rw [lookupA_reindexLoop_not_mem _ _ _ _ hv]
        by_cases hvu : v = u
        · subst hvu
          rw [lookupA_eraseA_self _ _ hnd]
          constructor
          · intro h; cases h
          · rintro ⟨q, hq, hqid⟩
            exfalso
            rw [get?_eraseIdx sc.children i n hlt] at hq
            by_cases hni : n < i
            · rw [if_pos hni] at hq
              have hcontra := (hic v n).mpr ⟨q, hq, hqid⟩
              rw [hidx] at hcontra
              have := Option.some.inj hcontra
              omega
            · rw [if_neg hni] at hq
              have hcontra := (hic v (n + 1)).mpr ⟨q, hq, hqid⟩
              rw [hidx] at hcontra
              have := Option.some.inj hcontra
              omega
        · rw [lookupA_eraseA_ne _ _ _ hvu, hic v n]
          constructor
          · rintro ⟨q, hq, hqid⟩
            have hn : n < sc.children.length := (List.get?_eq_some.mp hq).1
            have hni : n ≠ i := by
              intro he
              rw [he, hgr0] at hq
              cases hq
              exact hvu (by rw [← hqid]; exact hid0)
            by_cases hlt2 : n < i
            · refine ⟨q, ?_, hqid⟩
              rw [get?_eraseIdx sc.children i n hlt, if_pos hlt2]
              exact hq
            · exfalso
              apply hv
              have hq' : (sc.children.eraseIdx i).get? (n - 1) = some q := by
                rw [get?_eraseIdx sc.children i (n - 1) hlt, if_neg (by omega)]
                rw [show n - 1 + 1 = n by omega]
                exact hq
              rw [List.mem_map]
              refine ⟨q, ?_, hqid⟩
              rw [List.mem_iff_get?]
              refine ⟨n - 1 - i, ?_⟩
              rw [List.get?_drop, show i + (n - 1 - i) = n - 1 by omega]
              exact hq'
          · rintro ⟨q, hq, hqid⟩
            by_cases hni : n < i
            · refine ⟨q, ?_, hqid⟩
              rw [get?_eraseIdx sc.children i n hlt, if_pos hni] at hq
              exact hq
            · exfalso
              apply hv
              rw [List.mem_map]
              refine ⟨q, ?_, hqid⟩
              rw [List.mem_iff_get?]
              refine ⟨n - i, ?_⟩
              rw [List.get?_drop, show i + (n - i) = n by omega]
              exact hq
    · exact keysA_reindexLoop_nodup _ _ _ (keysA_eraseA_nodup _ _ hnd)

/-! ### Tick-driver characterization -/

/-- The pure per-list effect of one tick (spec §4.3): paused entries are kept
unchanged, running entries are carried with the updated cursor, terminal
entries are dropped. -/
def tickPure (step : Uuid → BState → BState × Status) (u : Uuid)
    (l : List Entry) : List Entry :=
  l.filterMap (fun e =>
    if e.paused then some e
    else if (step u e.s).2 = Status.running
      then some ⟨e.b, (step u e.s).1, e.paused⟩
      else none)

theorem tickEntry_paused (step : Uuid → BState → BState × Status) (sc : Scene)
    (u : Uuid) (e : Entry) (hp : e.paused = true) :
    tickEntry step sc u e = some (some e) := by
  simp [tickEntry, hp]

theorem tickEntry_not_paused (step : Uuid → BState → BState × Status)
    (sc : Scene) (u : Uuid) (e : Entry) (sp : Sprite) (hp : e.paused = false)
    (hcm : sc.child_mut u = some sp) :
    tickEntry step sc u e =
      some (if (step u e.s).2 = Status.running
            then some ⟨e.b, (step u e.s).1, e.paused⟩ else none) := by
  simp only [tickEntry, hp, Bool.false_eq_true, if_false, hcm]
  split
  · rfl
  · rfl

theorem tickEntry_lost (step : Uuid → BState → BState × Status) (sc : Scene)
    (u : Uuid) (e : Entry) (hp : e.paused = false)
    (hcm : sc.child_mut u = none) : tickEntry step sc u e = none := by
  simp [tickEntry, hp, hcm]

theorem tickPure_nil (step : Uuid → BState → BState × Status) (u : Uuid) :
    tickPure step u [] = [] := rfl

theorem tickPure_cons_paused (step : Uuid → BState → BState × Status)
    (u : Uuid) (e : Entry) (l : List Entry) (hp : e.paused = true) :
    tickPure step u (e :: l) = e :: tickPure step u l := by
  simp [tickPure, List.filterMap_cons, hp]

theorem tickPure_cons_running (step : Uuid → BState → BState × Status)
    (u : Uuid) (e : Entry) (l : List Entry) (hp : e.paused = false)
    (hst : (step u e.s).2 = Status.running) :
    tickPure step u (e :: l) =
      ⟨e.b, (step u e.s).1, e.paused⟩ :: tickPure step u l := by
  simp [tickPure, List.filterMap_cons, hp, hst]

theorem tickPure_cons_terminal (step : Uuid → BState → BState × Status)
    (u : Uuid) (e : Entry) (l : List Entry) (hp : e.paused = false)
    (hst : (step u e.s).2 ≠ Status.running) :
    tickPure step u (e :: l) = tickPure step u l := by
  simp [tickPure, List.filterMap_cons, hp, hst]

theorem tickList_eq_tickPure (step : Uuid → BState → BState × Status)
    (sc : Scene) (u : Uuid) :
    ∀ (l l' : List Entry), tickList step sc u l = some l' →
      l' = tickPure step u l := by
  intro l
  induction l with
  | nil =>
    intro l' h
    rw [tickList] at h
    cases h
    rfl
  | cons e rest ih =>
    intro l' h
    rw [tickList] at h
    cases hp : e.paused with
    | true =>
      rw [tickEntry_paused step sc u e hp] at h
      cases htl : tickList step sc u rest with
      | none => rw [htl] at h; cases h
      | some rest' =>
        rw [htl] at h
        cases h
        rw [tickPure_cons_paused step u e rest hp, ih rest' htl]
    | false =>
      cases hcm : sc.child_mut u with
      | none => rw [tickEntry_lost step sc u e hp hcm] at h; cases h
      | some sp =>
        rw [tickEntry_not_paused step sc u e sp hp hcm] at h
        cases htl : tickList step sc u rest with
        | none => rw [htl] at h; cases h
        | some rest' =>
          rw [htl] at h
          by_cases hst : (step u e.s).2 = Status.running
          · rw [if_pos hst] at h
            cases h
            rw [tickPure_cons_running step u e rest hp hst, ih rest' htl]
          · rw [if_neg hst] at h
            rw [tickPure_cons_terminal step u e rest hp hst, ← ih rest' htl]
            exact (Option.some.inj h).symm

theorem tickList_isSome_of_found (step : Uuid → BState → BState × Status)
    (sc : Scene) (u : Uuid) (sp : Sprite) (hcm : sc.child_mut u = some sp) :
    ∀ l : List Entry, tickList step sc u l = some (tickPure step u l) := by
  intro l
  induction l with
  | nil => rw [tickList]; rfl
  | cons e rest ih =>
    rw [tickList]
    cases hp : e.paused with
    | true =>
      rw [tickEntry_paused step sc u e hp, ih,
        tickPure_cons_paused step u e rest hp]
    | false =>
      rw [tickEntry_not_paused step sc u e sp hp hcm, ih]
      by_cases hst : (step u e.s).2 = Status.running
      · rw [if_pos hst, tickPure_cons_running step u e rest hp hst]
      · rw [if_neg hst, tickPure_cons_terminal step u e rest hp hst]

theorem tickAll_lookup (step : Uuid → BState → BState × Status) (sc : Scene) :
    ∀ (rs out : List (Uuid × List Entry)), (keysA rs).Nodup →
      tickAll step sc rs = some out →
      ∀ v, lookupA out v =
        match lookupA rs v with
        | none => none
        | some l =>
            if tickPure step v l = [] then none else some (tickPure step v l) := by
  intro rs
  induction rs with
  | nil =>
    intro out _ h v
    rw [tickAll] at h
    cases h
    rfl
  | cons q rest ih =>
    obtain ⟨u, es⟩ := q
    intro out hnd h v
    simp only [keysA, List.map_cons, List.nodup_cons] at hnd
    rw [tickAll] at h
    cases hes : tickList step sc u es with
    | none => rw [hes] at h; cases h
    | some es' =>
      rw [hes] at h
      cases hr : tickAll step sc rest with
      | none => rw [hr] at h; cases h
      | some rest' =>
        rw [hr] at h
        have hesp : es' = tickPure step u es := tickList_eq_tickPure step sc u es es' hes
        have hout : out = if 0 < es'.length then (u, es') :: rest' else rest' :=
          (Option.some.inj h).symm
        have hrest := ih rest' hnd.2 hr
        by_cases hv : v = u
        · subst hv
          have hlv : lookupA ((v, es) :: rest) v = some es := by
            rw [lookupA, if_pos rfl]
          rw [hlv]
          have hnone : lookupA rest v = none :=
            lookupA_eq_none_of_not_mem_keysA rest v hnd.1
          show lookupA out v =
            if tickPure step v es = [] then none else some (tickPure step v es)
          by_cases hlen : 0 < es'.length
          · rw [hout, if_pos hlen, lookupA, if_pos rfl, hesp]
            have hne : tickPure step v es ≠ [] := by
              rw [← hesp]
              intro hc
              rw [hc] at hlen
              simp at hlen
            rw [if_neg hne]
          · have hemp : tickPure step v es = [] := by
              rw [← hesp]
              cases es' with
              | nil => rfl
              | cons a b => simp at hlen
            rw [hout, if_neg hlen, if_pos hemp]
            have hthis := hrest v
            rw [hnone] at hthis
            exact hthis
        · have hlv : lookupA ((u, es) :: rest) v = lookupA rest v := by
            rw [lookupA, if_neg (fun hh => hv hh.symm)]
          rw [hlv]
          by_cases hlen : 0 < es'.length
          · rw [hout, if_pos hlen, lookupA, if_neg (fun hh => hv hh.symm)]
            exact hrest v
          · rw [hout, if_neg hlen]
            exact hrest v

theorem tickAll_totalLen (step : Uuid → BState → BState × Status) (sc : Scene) :
    ∀ (rs out : List (Uuid × List Entry)), tickAll step sc rs = some out →
      totalLen out = (rs.map (fun p => (tickPure step p.1 p.2).length)).sum := by
  intro rs
  induction rs with
  | nil =>
    intro out h
    rw [tickAll] at h
    cases h
    rfl
  | cons q rest ih =>
    obtain ⟨u, es⟩ := q
    intro out h
    rw [tickAll] at h
    cases hes : tickList step sc u es with
    | none => rw [hes] at h; cases h
    | some es' =>
      rw [hes] at h
      cases hr : tickAll step sc rest with
      | none => rw [hr] at h; cases h
      | some rest' =>
        rw [hr] at h
        have hesp : es' = tickPure step u es := tickList_eq_tickPure step sc u es es' hes
        have hout : out = if 0 < es'.length then (u, es') :: rest' else rest' :=
          (Option.some.inj h).symm
        have hrest := ih rest' hr
        rw [hout]
        by_cases hlen : 0 < es'.length
        · rw [if_pos hlen]
          simp only [totalLen, List.map_cons, List.sum_cons] at hrest ⊢
          rw [hrest, hesp]
        · rw [if_neg hlen]
          have hemp : es'.length = 0 := by omega
          simp only [totalLen, List.map_cons, List.sum_cons] at hrest ⊢
          rw [hrest, ← hesp]
          omega

theorem event_eq (sc : Scene) (step : Uuid → BState → BState × Status)
    (sc' : Scene) (h : sc.event step = some sc') :
    ∃ out, tickAll step sc sc.running = some out ∧
      sc' = { sc with running := out } := by
  unfold Scene.event at h
  cases hr : tickAll step sc sc.running with
  | none => rw [hr] at h; cases h
  | some out =>
    rw [hr] at h
    cases h
    exact ⟨out, rfl, rfl⟩

theorem tickAll_isSome (step : Uuid → BState → BState × Status) (sc : Scene) :
    ∀ rs : List (Uuid × List Entry), (∀ p ∈ rs, sc.child_mut p.1 ≠ none) →
      ∃ out, tickAll step sc rs = some out := by
  intro rs
  induction rs with
  | nil => intro _; exact ⟨[], rfl⟩
  | cons q rest ih =>
    obtain ⟨u, es⟩ := q
    intro h
    have hu : sc.child_mut u ≠ none := h (u, es) (List.mem_cons_self _ _)
    obtain ⟨sp, hsp⟩ : ∃ sp, sc.child_mut u = some sp := by
      cases hc : sc.child_mut u with
      | none => exact absurd hc hu
      | some sp => exact ⟨sp, rfl⟩
    obtain ⟨out', hout'⟩ := ih (fun p hp => h p (List.mem_cons_of_mem _ hp))
    refine ⟨if 0 < (tickPure step u es).length
        then (u, tickPure step u es) :: out' else out', ?_⟩
    rw [tickAll, tickList_isSome_of_found step sc u sp hsp es, hout']

theorem id_mem_allIdsList (cs : List Sprite) (c : Sprite) (hc : c ∈ cs) :
    c.id ∈ allIdsList cs := by
  induction cs with
  | nil => cases hc
  | cons d ds ih =>
    rcases List.mem_cons.mp hc with rfl | h
    · rw [allIdsList]
      exact List.mem_append.mpr (Or.inl (id_mem_allIds c))
    · rw [allIdsList]
      exact List.mem_append.mpr (Or.inr (ih h))

/-- Scenes obtainable from the empty scene by a sequence of `add_child` (with
a top-level-fresh identifier, as the claim's distinctness premise guarantees)
and `remove_child` operations. -/
inductive Reachable : Scene → Prop where
  | init : Reachable Scene.new
  | add (sc : Scene) (sp : Sprite) : Reachable sc → sp.id ∉ topIds sc →
      Reachable (sc.add_child sp).2
  | rem (sc : Scene) (u : Uuid) : Reachable sc → Reachable (sc.remove_child u).2

/-- C3: after any sequence of `add_child`/`remove_child` from the empty scene
with distinct identifiers, the identifier→position index maps each top-level
sprite's identifier to its exact current position, and holds no entry for an
identifier that is not currently at top level. -/
theorem c3_tree_index_consistency :
    ∀ sc : Scene, Reachable sc →
      (∀ n sp, sc.children.get? n = some sp →
        lookupA sc.children_index sp.id = some n) ∧
      (∀ u, u ∉ topIds sc → lookupA sc.children_index u = none) := by
  intro sc h
  have hinv : sceneInv sc := by
    induction h with
    | init => exact sceneInv_new
    | add sc0 sp _ hfresh ih => exact sceneInv_add_child sc0 sp ih hfresh
    | rem sc0 u _ ih => exact sceneInv_remove_child sc0 u ih
  obtain ⟨hic, _⟩ := hinv
  constructor
  · intro n sp hget
    exact (hic sp.id n).mpr ⟨sp, hget, rfl⟩
  · intro u hu
    cases hl : lookupA sc.children_index u with
    | none => rfl
    | some n =>
      exfalso
      obtain ⟨q, hq, hqid⟩ := (hic u n).mp hl
      apply hu
      simp only [topIds]
      exact List.mem_map.mpr ⟨q, List.get?_mem hq, hqid⟩

theorem c3_tree_index_consistency_witness :
    (∀ n sp,
        (((Scene.new.add_child (Sprite.node 4 [])).2.remove_child 4).2).children.get? n
            = some sp →
        lookupA (((Scene.new.add_child (Sprite.node 4 [])).2.remove_child 4).2).children_index
            sp.id = some n) ∧
      (∀ u, u ∉ topIds (((Scene.new.add_child (Sprite.node 4 [])).2.remove_child 4).2) →
        lookupA (((Scene.new.add_child (Sprite.node 4 [])).2.remove_child 4).2).children_index
            u = none) :=
  c3_tree_index_consistency _
    (Reachable.rem _ 4 (Reachable.add _ _ Reachable.init (by decide)))

theorem add_child_eq (sc : Scene) (sp : Sprite) :
    sc.add_child sp =
      (sp.id,
        { sc with
            children := sc.children ++ [sp],
            children_index :=
              insertA sc.children_index sp.id ((sc.children ++ [sp]).length - 1) }) := rfl

/-- C8: `add_child` returns the sprite's own identifier and the sprite is
immediately locatable under it; an identifier occurring nowhere in the forest
is reported absent by both `child` and `child_mut` (given a consistent index). -/
theorem c8_add_returns_id_and_lookup :
    ∀ (sc : Scene) (sp : Sprite) (u : Uuid),
      ((sc.add_child sp).1 = sp.id ∧ (sc.add_child sp).2.child sp.id = some sp) ∧
      (indexConsistent sc → u ∉ allIdsList sc.children →
        sc.child u = none ∧ sc.child_mut u = none) := by
  intro sc sp u
  constructor
  · constructor
    · rfl
    · rw [add_child_eq]
      show Scene.child
        { sc with
            children := sc.children ++ [sp],
            children_index :=
              insertA sc.children_index sp.id ((sc.children ++ [sp]).length - 1) }
        sp.id = some sp
      simp only [Scene.child, lookupA_insertA_self]
      have hL : (sc.children ++ [sp]).length - 1 = sc.children.length := by simp
      rw [hL]
      exact List.get?_concat_length sc.children sp
  · intro hic hu
    have hidx : lookupA sc.children_index u = none := by
      cases hl : lookupA sc.children_index u with
      | none => rfl
      | some n =>
        exfalso
        obtain ⟨q, hq, hqid⟩ := (hic u n).mp hl
        apply hu
        rw [← hqid]
        exact id_mem_allIdsList sc.children q (List.get?_mem hq)
    constructor
    · unfold Scene.child
      rw [hidx]
      exact childList_none_of_not_mem sc.children u hu
    · unfold Scene.child_mut
      rw [hidx]
      exact childList_none_of_not_mem sc.children u hu

theorem c8_add_returns_id_and_lookup_witness :
    indexConsistent Scene.new ∧ 7 ∉ allIdsList Scene.new.children ∧
      (Scene.new.child 7 = none ∧ Scene.new.child_mut 7 = none) :=
  ⟨sceneInv_new.1, by decide,
    (c8_add_returns_id_and_lookup Scene.new (Sprite.node 1 []) 7).2
      sceneInv_new.1 (by decide)⟩

/-- C4: a paused registry entry is carried by `event` into the next-generation
registry completely unchanged — the same (template, cursor, paused) triple is
present under the same identifier afterwards, whatever the step function does. -/
theorem c4_paused_entries_unchanged :
    ∀ (sc : Scene) (step : Uuid → BState → BState × Status) (sc' : Scene)
      (u : Uuid) (l : List Entry) (e : Entry),
      (keysA sc.running).Nodup → sc.event step = some sc' →
      lookupA sc.running u = some l → e ∈ l → e.paused = true →
      ∃ l', lookupA sc'.running u = some l' ∧ e ∈ l' := by
  intro sc step sc' u l e hnd hev hl hmem hp
  obtain ⟨out, hout, rfl⟩ := event_eq sc step sc' hev
  have hchar := tickAll_lookup step sc sc.running out hnd hout u
  rw [hl] at hchar
  have hchar2 : lookupA out u =
      if tickPure step u l = [] then none else some (tickPure step u l) := hchar
  have hmem' : e ∈ tickPure step u l := by
    rw [tickPure]
    apply List.mem_filterMap.mpr
    exact ⟨e, hmem, by simp [hp]⟩
  have hne : tickPure step u l ≠ [] := List.ne_nil_of_mem hmem'
  rw [if_neg hne] at hchar2
  exact ⟨tickPure step u l, hchar2, hmem'⟩

theorem c4_paused_entries_unchanged_witness :
    (keysA ((Scene.new.run 0 5).pause 0 5).running).Nodup ∧
      ((Scene.new.run 0 5).pause 0 5).event (fun _ s => (s, Status.succeeded))
        = some ((Scene.new.run 0 5).pause 0 5) ∧
      ∃ l', lookupA ((Scene.new.run 0 5).pause 0 5).running 0 = some l' ∧
        (⟨5, 5, true⟩ : Entry) ∈ l' :=
  ⟨by decide, by decide,
    c4_paused_entries_unchanged ((Scene.new.run 0 5).pause 0 5)
      (fun _ s => (s, Status.succeeded)) ((Scene.new.run 0 5).pause 0 5)
      0 [⟨5, 5, true⟩] ⟨5, 5, true⟩ (by decide) (by decide) (by decide)
      (by decide) (by decide)⟩

/-- C7: when `event` succeeds, each identifier's next-generation list is
exactly the pure tick of its previous list — paused entries kept, running
entries carried with the updated cursor, entries whose status is `succeeded`
or `failed` absent — and `running()` immediately afterwards counts exactly
the surviving entries. -/
theorem c7_terminal_entries_retired :
    ∀ (sc : Scene) (step : Uuid → BState → BState × Status) (sc' : Scene),
      (keysA sc.running).Nodup → sc.event step = some sc' →
      (∀ v, lookupA sc'.running v =
        match lookupA sc.running v with
        | none => none
        | some l =>
            if tickPure step v l = [] then none else some (tickPure step v l)) ∧
      sc'.runningCount =
        (sc.running.map (fun p => (tickPure step p.1 p.2).length)).sum := by
  intro sc step sc' hnd hev
  obtain ⟨out, hout, rfl⟩ := event_eq sc step sc' hev
  exact ⟨tickAll_lookup step sc sc.running out hnd hout,
    tickAll_totalLen step sc sc.running out hout⟩

theorem c7_terminal_entries_retired_witness :
    (keysA ((Scene.new.add_child (Sprite.node 0 [])).2.run 0 5).running).Nodup ∧
      ((∀ v, lookupA (Scene.new.add_child (Sprite.node 0 [])).2.running v =
        match lookupA ((Scene.new.add_child (Sprite.node 0 [])).2.run 0 5).running v with
        | none => none
        | some l =>
            if tickPure (fun _ s => (s, Status.succeeded)) v l = [] then none
            else some (tickPure (fun _ s => (s, Status.succeeded)) v l)) ∧
      (Scene.new.add_child (Sprite.node 0 [])).2.runningCount =
        (((Scene.new.add_child (Sprite.node 0 [])).2.run 0 5).running.map
          (fun p => (tickPure (fun _ s => (s, Status.succeeded)) p.1 p.2).length)).sum) :=
  ⟨by decide,
    c7_terminal_entries_retired ((Scene.new.add_child (Sprite.node 0 [])).2.run 0 5)
      (fun _ s => (s, Status.succeeded)) (Scene.new.add_child (Sprite.node 0 [])).2
      (by decide) (by decide)⟩

/-- C9: if every registry key refers to an entity present in the tree, the
entity lookup inside `event` (the unwrap of `child_mut`) cannot fail: the tick
always completes. -/
theorem c9_event_lookup_never_fails :
    ∀ (sc : Scene) (step : Uuid → BState → BState × Status),
      (∀ p ∈ sc.running, sc.child_mut p.1 ≠ none) →
      ∃ sc', sc.event step = some sc' := by
  intro sc step h
  obtain ⟨out, hout⟩ := tickAll_isSome step sc sc.running h
  refine ⟨{ sc with running := out }, ?_⟩
  unfold Scene.event
  rw [hout]

theorem c9_event_lookup_never_fails_witness :
    (∀ p ∈ ((Scene.new.add_child (Sprite.node 0 [])).2.run 0 5).running,
      ((Scene.new.add_child (Sprite.node 0 [])).2.run 0 5).child_mut p.1 ≠ none) ∧
    ∃ sc', ((Scene.new.add_child (Sprite.node 0 [])).2.run 0 5).event
        (fun _ s => (s + 1, Status.running)) = some sc' :=
  ⟨by decide,
    c9_event_lookup_never_fails ((Scene.new.add_child (Sprite.node 0 [])).2.run 0 5)
      (fun _ s => (s + 1, Status.running)) (by decide)⟩
